import Mathlib

/-!
Verification of avbroot's core patching logic (src/avbroot/boot.py and
src/avbroot/main.py) against its natural-language specification.

The Python source is shallowly embedded: pure computations become Lean
functions, fallible operations return `Except`, byte strings are modelled
as `String` (entry names and contents are ASCII paths and opaque blobs whose
only relevant operations are equality, concatenation and lexicographic
comparison, which agree with byte-wise operations on the ASCII fragment used
by the program), and Python `dict`s become association lists.
-/

namespace Avbroot

/-! ### Magisk version gate (boot.py, MagiskRootPatch) -/

/-- Modelled from the spec: `util.Range` (not under src/) is a half-open
interval `[start, end)`; membership is `start ≤ v < end`
(spec §4.3 "Accepted version ranges are enumerated as half-open intervals",
and the source comment "Half-open intervals" at boot.py:55). -/
def rangeContains (r : Nat × Nat) (v : Nat) : Bool :=
  decide (r.1 ≤ v) && decide (v < r.2)

/-- `MagiskRootPatch.VERS_SUPPORTED` (boot.py:63-67). -/
def magiskVersSupported : List (Nat × Nat) :=
  [(25102, 25207), (25211, 26200), (26201, 27000)]

/-- `MagiskRootPatch.VER_PREINIT_DEVICE = Range(25211, VERS_SUPPORTED[-1].end)`
(boot.py:68). -/
def verPreinitDevice : Nat × Nat := (25211, 27000)

/-- `MagiskRootPatch.VER_RANDOM_SEED = Range(25211, VERS_SUPPORTED[-1].end)`
(boot.py:69). -/
def verRandomSeed : Nat × Nat := (25211, 27000)

/-- Hardcoded default random seed (boot.py:80). -/
def defaultMagiskRandomSeed : Nat := 0xfedcba9876543210

/-- The version-support check of `MagiskRootPatch.validate` (boot.py:95):
`any(self.version in s for s in self.VERS_SUPPORTED)`. -/
def magiskVersionSupported (version : Nat) : Bool :=
  magiskVersSupported.any (fun r => rangeContains r version)

/-- `MagiskRootPatch.validate` (boot.py:94-104): reject unsupported versions,
then reject a missing preinit device for versions in `VER_PREINIT_DEVICE`. -/
def magiskValidate (version : Nat) (preinitDevice : Option String) :
    Except String Unit :=
  if !magiskVersionSupported version then
    .error ("Unsupported Magisk version " ++ toString version)
  else if preinitDevice.isNone && rangeContains verPreinitDevice version then
    .error ("Magisk version " ++ toString version ++
      " requires a preinit device to be specified")
  else .ok ()

/-- Lowercase hexadecimal rendering of a natural number, as Python's
`b'0x%x' % seed` produces (boot.py:185). -/
def natToHexLower (n : Nat) : String := String.mk (Nat.toDigits 16 n)

/-- The `.backup/.magisk` config blob built by `MagiskRootPatch._patch`
(boot.py:172-185).  `none` models the crash that `self.preinit_device.encode`
raises when the version requires a preinit device but none is configured;
the SHA-1 hex digest of the pre-patch image is passed in as `sha1Hex`
(the hashing itself is `util.hash_file`, an external helper). -/
def magiskConfig (version : Nat) (preinitDevice : Option String)
    (sha1Hex : String) (randomSeed : Nat) : Option String :=
  let base := "KEEPVERITY=true\nKEEPFORCEENCRYPT=true\nPATCHVBMETAFLAG=false\nRECOVERYMODE=false\n"
  let withPreinit : Option String :=
    if rangeContains verPreinitDevice version then
      match preinitDevice with
      | some p => some (base ++ "PREINITDEVICE=" ++ p ++ "\n")
      | none => none
    else some base
  withPreinit.map (fun s =>
    let s1 := s ++ "SHA1=" ++ sha1Hex ++ "\n"
    if rangeContains verRandomSeed version then
      s1 ++ "RANDOMSEED=0x" ++ natToHexLower randomSeed ++ "\n"
    else s1)

/-! ### patch_boot key handling and algorithm lift (boot.py:396-435) -/

/-- The key-dropping step of `patch_boot` (boot.py:406-408): if the original
image has no public key (`public_key_size == 0`) and
`only_if_previously_signed` is set, the key parameter is dropped. -/
def patchBootEffectiveKey (publicKeySize : Nat) (key : Option String)
    (onlyIfPreviouslySigned : Bool) : Option String :=
  if publicKeySize = 0 ∧ onlyIfPreviouslySigned then none else key

/-- The key-presence check of `patch_boot` (boot.py:406-414): after the
conditional drop, a mismatch between "old had key" and "new has key" is a
fatal error; on success the effective key (possibly `none`, meaning the
output stays unsigned) is used for re-signing. -/
def patchBootKeyCheck (publicKeySize : Nat) (key : Option String)
    (onlyIfPreviouslySigned : Bool) : Except String (Option String) :=
  let haveKeyOld : Bool := decide (publicKeySize ≠ 0)
  let k := patchBootEffectiveKey publicKeySize key onlyIfPreviouslySigned
  let haveKeyNew : Bool := k.isSome
  if haveKeyOld ≠ haveKeyNew then
    .error "Key presence does not match"
  else .ok k

/-- The algorithm lift of `patch_boot` (boot.py:430-435): `SHA256_RSA2048`
is upgraded to `SHA256_RSA4096`; every other algorithm name is unchanged. -/
def liftAlgorithmName (algorithmName : String) : String :=
  if algorithmName = "SHA256_RSA2048" then "SHA256_RSA4096" else algorithmName

/-! ### PrepatchedImage compatibility check (boot.py:286-393) -/

/-- `PrepatchedImage.MIN_LEVEL` (boot.py:296). -/
def prepatchedMinLevel : Nat := 0

/-- `PrepatchedImage.MAX_LEVEL` (boot.py:297). -/
def prepatchedMaxLevel : Nat := 2

/-- A boot image as `PrepatchedImage.patch` observes it: the `to_dict()`
header rendered as an association list with distinct keys (the external
`bootimage` parser renders header values as strings), presence booleans for
the five optional sections inspected at boot.py:337, the number of ramdisks,
and the kernel-module-interface version that `_get_kmi_version` extracts
from the kernel blob (the regex search itself lives in the external `re`
and `compression` libraries, so its result is carried as a field). -/
structure BootImageModel where
  header : List (String × String)
  kernel : Bool
  second : Bool
  recovery_dtbo : Bool
  dtb : Bool
  bootconfig : Bool
  ramdisks : Nat
  kmi : Option String
deriving DecidableEq

/-- Keys of a Python dict modelled as an association list. -/
def assocKeys (h : List (String × String)) : List String := h.map (·.1)

/-- Dict lookup on an association list (keys are distinct in `to_dict()`). -/
def assocGet (h : List (String × String)) (k : String) : Option String :=
  (h.find? (fun p => p.1 = k)).map (·.2)

/-- Issue level assigned to a changed header field (boot.py:327-332). -/
def levelOfHeaderKey (k : String) : Nat :=
  if k = "id" ∨ k = "os_version" then 0
  else if k = "cmdline" ∨ k = "extra_cmdline" then 1
  else 2

/-- The compatibility issues that `PrepatchedImage.patch` collects
(boot.py:317-357), as the triple `(issues[0], issues[1], issues[2])`:
added/removed header fields (level 2), changed header fields (level by
`levelOfHeaderKey`), added sections (level 1), removed sections (level 2),
a decreased ramdisk count (level 2), and a KMI version change when the
original image has a kernel (level 2). -/
def computeIssues (old nw : BootImageModel) :
    List String × List String × List String :=
  let oldKeys := assocKeys old.header
  let newKeys := assocKeys nw.header
  let addedKeys := newKeys.filter (fun k => decide (k ∉ oldKeys))
  let removedKeys := oldKeys.filter (fun k => decide (k ∉ newKeys))
  let common := oldKeys.filter (fun k => decide (k ∈ newKeys))
  let changed := common.filter
    (fun k => decide (assocGet old.header k ≠ assocGet nw.header k))
  let chMsg := fun k => k ++ " header field was changed: " ++
    (assocGet old.header k).getD "" ++ " -> " ++ (assocGet nw.header k).getD ""
  let i0h := (changed.filter (fun k => decide (levelOfHeaderKey k = 0))).map chMsg
  let i1h := (changed.filter (fun k => decide (levelOfHeaderKey k = 1))).map chMsg
  let i2h := (changed.filter (fun k => decide (levelOfHeaderKey k = 2))).map chMsg
  let i2a := addedKeys.map (fun k => k ++ " header field was added")
  let i2b := removedKeys.map (fun k => k ++ " header field was removed")
  let secs : List (String × Bool × Bool) :=
    [("kernel", old.kernel, nw.kernel), ("second", old.second, nw.second),
     ("recovery_dtbo", old.recovery_dtbo, nw.recovery_dtbo),
     ("dtb", old.dtb, nw.dtb), ("bootconfig", old.bootconfig, nw.bootconfig)]
  let i1s := (secs.filter (fun s => !s.2.1 && s.2.2)).map
    (fun s => s.1 ++ " section was added")
  let i2s := (secs.filter (fun s => s.2.1 && !s.2.2)).map
    (fun s => s.1 ++ " section was removed")
  let i2r := if nw.ramdisks < old.ramdisks then
      ["Number of ramdisk sections decreased: " ++ toString old.ramdisks ++
        " -> " ++ toString nw.ramdisks]
    else []
  let i2k := if old.kernel && decide (old.kmi ≠ nw.kmi) then
      ["Kernel module interface version changed: " ++ old.kmi.getD "None" ++
        " -> " ++ nw.kmi.getD "None"]
    else []
  (i0h, i1h ++ i1s, i2a ++ i2b ++ i2h ++ i2s ++ i2r ++ i2k)

/-- The warning list of `PrepatchedImage.patch` (boot.py:359-361): all issues
at levels in `[MIN_LEVEL, min(MAX_LEVEL + 1, fatal_level))`. -/
def prepatchedWarnings (fatalLevel : Nat) (issues : List (List String)) :
    List String :=
  (List.range' prepatchedMinLevel
      (min (prepatchedMaxLevel + 1) fatalLevel - prepatchedMinLevel)).flatMap
    (fun i => issues.getD i [])

/-- The error list of `PrepatchedImage.patch` (boot.py:362-364): all issues
at levels in `[max(MIN_LEVEL, fatal_level), MAX_LEVEL + 1)`. -/
def prepatchedErrors (fatalLevel : Nat) (issues : List (List String)) :
    List String :=
  (List.range' (max prepatchedMinLevel fatalLevel)
      (prepatchedMaxLevel + 1 - max prepatchedMinLevel fatalLevel)).flatMap
    (fun i => issues.getD i [])

/-- Whether `PrepatchedImage.patch` raises `ValueError` (boot.py:371-374):
exactly when the error list is nonempty. -/
def prepatchedRaises (fatalLevel : Nat) (issues : List (List String)) : Bool :=
  !(prepatchedErrors fatalLevel issues).isEmpty

/-- Whether `PrepatchedImage.patch` invokes the warning callback
(boot.py:366-369): exactly when the warning list is nonempty. -/
def prepatchedWarns (fatalLevel : Nat) (issues : List (List String)) : Bool :=
  !(prepatchedWarnings fatalLevel issues).isEmpty

/-- A concrete original boot image used to exercise the prepatched check. -/
def sampleOldImage : BootImageModel :=
  { header := [("id", "aa"), ("os_version", "13.0.0"), ("cmdline", "quiet")]
    kernel := true, second := false, recovery_dtbo := false, dtb := true
    bootconfig := false, ramdisks := 1, kmi := some "5.10-android12-9" }

/-- A prepatched boot image differing from `sampleOldImage` only in the
`id` header field (a level-0 issue). -/
def sampleNewImage : BootImageModel :=
  { header := [("id", "bb"), ("os_version", "13.0.0"), ("cmdline", "quiet")]
    kernel := true, second := false, recovery_dtbo := false, dtb := true
    bootconfig := false, ramdisks := 1, kmi := some "5.10-android12-9" }

/-- Issue triple rendered as the `issues` list of lists (boot.py:317). -/
def issuesList (t : List String × List String × List String) :
    List (List String) := [t.1, t.2.1, t.2.2]

/-! ### Magisk backup construction (boot.py:199-229) -/

/-- A cpio ramdisk entry as `_apply_magisk_backup` observes it: a byte-string
name, POSIX mode bits, and opaque content bytes (modelled as `String`). -/
structure CpioEntry where
  name : String
  perms : Nat
  content : String
deriving DecidableEq

/-- The names of a ramdisk entry list, in list order. -/
def entryNames (entries : List CpioEntry) : List String := entries.map (·.name)

/-- The Python dict comprehension `{e.name: e for e in entries}` maps each
name to the LAST entry carrying it, so lookup scans the reversed list. -/
def lookupEntry (entries : List CpioEntry) (n : String) : Option CpioEntry :=
  entries.reverse.find? (fun e => e.name = n)

/-- The set `added = new_by_name.keys() - old_by_name.keys()` (boot.py:214),
as a duplicate-free list. -/
def addedNames (old_entries new_entries : List CpioEntry) : List String :=
  ((entryNames new_entries).filter
    (fun n => decide (n ∉ entryNames old_entries))).dedup

/-- The set `deleted | changed` (boot.py:215-217, 222): names present in the
old entries that are either absent from the new entries or mapped to
different content bytes.  Python iterates this set in unspecified order; the
model fixes old-list order, which the claims do not depend on. -/
def backupTargets (old_entries new_entries : List CpioEntry) : List String :=
  ((entryNames old_entries).dedup).filter (fun n =>
    decide (n ∉ entryNames new_entries) ||
    (match lookupEntry old_entries n, lookupEntry new_entries n with
     | some eo, some en => decide (eo.content ≠ en.content)
     | _, _ => false))

/-- Python's `sorted(added)` (boot.py:227): lexicographic byte order, which
for these ASCII names coincides with `String` order. -/
def sortedAddedNames (old_entries new_entries : List CpioEntry) : List String :=
  (addedNames old_entries new_entries).insertionSort (· ≤ ·)

/-- The `.backup/.rmlist` blob (boot.py:227): each added name in sorted
order followed by one NUL byte. -/
def rmlistContent (old_entries new_entries : List CpioEntry) : String :=
  (sortedAddedNames old_entries new_entries).foldl
    (fun acc n => acc ++ n ++ "\x00") ""

/-- `MagiskRootPatch._apply_magisk_backup` (boot.py:199-229): append the
`.backup` directory (mode 0000), the old entries for deleted/changed names
renamed to `.backup/<name>`, and finally `.backup/.rmlist` (mode 0000). -/
def applyMagiskBackup (old_entries new_entries : List CpioEntry) :
    List CpioEntry :=
  new_entries ++ [⟨".backup", 0, ""⟩] ++
    (backupTargets old_entries new_entries).map (fun n =>
      match lookupEntry old_entries n with
      | some e => ⟨".backup/" ++ n, e.perms, e.content⟩
      | none => ⟨".backup/" ++ n, 0, ""⟩) ++
    [⟨".backup/.rmlist", 0, rmlistContent old_entries new_entries⟩]

/-! ### OtaCertPatch (boot.py:232-283) -/

/-- Content of a ramdisk entry in the otacerts patch: the original opaque
bytes, or the freshly built zip archive.  The zip serialization itself is the
external `zipfile` library, so the built archive is kept structured: a list
of (entry name, entry bytes) pairs. -/
inductive OtaContent where
  | bytes (bs : List Nat) : OtaContent
  | zipArchive (entries : List (String × List Nat)) : OtaContent
deriving DecidableEq

/-- A ramdisk entry as `OtaCertPatch.patch` observes it. -/
structure OtaEntry where
  name : String
  content : OtaContent
deriving DecidableEq

/-- `OtaCertPatch.OTACERTS_PATH` (boot.py:238). -/
def otacertsPath : String := "system/etc/security/otacerts.zip"

/-- The replacement archive built at boot.py:262-275: exactly one entry,
`ota.x509.pem`, holding the user's certificate bytes. -/
def otacertsArchive (cert : List Nat) : OtaContent :=
  .zipArchive [("ota.x509.pem", cert)]

/-- Replace the content of the first entry named `OTACERTS_PATH`, as the
`next(...)` lookup plus in-place mutation at boot.py:253-275 does. -/
def replaceOtacerts (cert : List Nat) : List OtaEntry → List OtaEntry
  | [] => []
  | e :: rest =>
    if e.name = otacertsPath then
      { e with content := otacertsArchive cert } :: rest
    else e :: replaceOtacerts cert rest

/-- Whether a ramdisk contains an entry named `OTACERTS_PATH`. -/
def ramdiskHasOtacerts (entries : List OtaEntry) : Bool :=
  entries.any (fun e => e.name = otacertsPath)

/-- `OtaCertPatch.patch` (boot.py:243-283) at ramdisk-entry level: patch the
matching entry of every ramdisk that has one, and raise iff none does. -/
def otaCertPatch (cert : List Nat) (ramdisks : List (List OtaEntry)) :
    Except String (List (List OtaEntry)) :=
  let patched := ramdisks.map (fun entries =>
    if ramdiskHasOtacerts entries then replaceOtacerts cert entries
    else entries)
  if ramdisks.any ramdiskHasOtacerts then .ok patched
  else .error (otacertsPath ++ " not found in ramdisk")

/-! ### Zip re-emitter entry ordering (main.py:291-325) -/

/-- `PATH_METADATA` (main.py:29). -/
def pathMetadata : String := "META-INF/com/android/metadata"
/-- `PATH_METADATA_PB` (main.py:30). -/
def pathMetadataPb : String := "META-INF/com/android/metadata.pb"
/-- `PATH_OTACERT` (main.py:31). -/
def pathOtacert : String := "META-INF/com/android/otacert"
/-- `PATH_PAYLOAD` (main.py:32). -/
def pathPayload : String := "payload.bin"
/-- `PATH_PROPERTIES` (main.py:33). -/
def pathProperties : String := "payload_properties.txt"

/-- The five required entries collected into `missing` (main.py:297-303). -/
def requiredZipPaths : List String :=
  [pathMetadata, pathMetadataPb, pathOtacert, pathPayload, pathProperties]

/-- The scan loop of `patch_ota_zip` (main.py:307-317) over the infolist
entry names: remove seen names from `missing`, record the (last seen)
indices of `payload.bin` and `payload_properties.txt` (`-1` when unseen, as
in the source), and break once `missing` is empty and both indices are
non-negative. -/
def scanInfolist :
    List String → Nat → List String → Int → Int → List String × Int × Int
  | [], _, missing, ipay, iprop => (missing, ipay, iprop)
  | name :: rest, i, missing, ipay, iprop =>
    if (missing.filter (fun m => decide (m ≠ name))).isEmpty &&
        decide (0 ≤ if name = pathPayload then (i : Int) else ipay) &&
        decide (0 ≤ if name = pathProperties then (i : Int) else iprop) then
      (missing.filter (fun m => decide (m ≠ name)),
       if name = pathPayload then (i : Int) else ipay,
       if name = pathProperties then (i : Int) else iprop)
    else
      scanInfolist rest (i + 1) (missing.filter (fun m => decide (m ≠ name)))
        (if name = pathPayload then (i : Int) else ipay)
        (if name = pathProperties then (i : Int) else iprop)

/-- The in-place swap `infolist[i], infolist[j] = infolist[j], infolist[i]`
(main.py:323-325). -/
def swapIndices (l : List String) (i j : Nat) : List String :=
  (l.set i (l.getD j "")).set j (l.getD i "")

/-- The entry-(re)ordering part of `patch_ota_zip` (main.py:296-325): scan,
raise if required entries are missing, and swap the payload and properties
entries when the payload would otherwise be processed after the properties. -/
def patchOtaZipOrder (infolist : List String) : Except String (List String) :=
  if !(scanInfolist infolist 0 requiredZipPaths (-1) (-1)).1.isEmpty then
    .error "Missing files in zip"
  else if (scanInfolist infolist 0 requiredZipPaths (-1) (-1)).2.2 <
      (scanInfolist infolist 0 requiredZipPaths (-1) (-1)).2.1 then
    .ok (swapIndices infolist
      (scanInfolist infolist 0 requiredZipPaths (-1) (-1)).2.1.toNat
      (scanInfolist infolist 0 requiredZipPaths (-1) (-1)).2.2.toNat)
  else .ok infolist

/-- A concrete infolist whose properties entry precedes its payload entry. -/
def sampleInfolist : List String :=
  [pathMetadata, pathMetadataPb, pathOtacert, pathProperties, pathPayload]

/-! ### Partition planner: vbmeta patch order (main.py:101-123) -/

/-- A dependency graph as a Python dict rendered in insertion order: each key
maps a vbmeta image name to the list of image names it depends on (the
source's dependency sets are sets of strings; the model keeps the iteration
order abstract as a list).  The raw graph comes from `vbmeta.get_vbmeta_deps`,
repository code outside src/, so it is taken as an input, exactly as the
claim quantifies over dependency graphs. -/
abbrev VbmetaGraph := List (String × List String)

/-- Dict lookup of a node, defaulting to no dependencies. -/
def depsOf (g : VbmetaGraph) (n : String) : List String :=
  ((g.find? (fun p => p.1 = n)).map (fun p => p.2)).getD []

/-- The restriction step (main.py:106-107): keep only nodes present in
`image_paths`, and restrict each node's dependencies likewise. -/
def restrictDeps (imagePaths : List String) (g : VbmetaGraph) : VbmetaGraph :=
  (g.filter (fun p => decide (p.1 ∈ imagePaths))).map
    (fun p => (p.1, p.2.filter (fun d => decide (d ∈ imagePaths))))

/-- One round of `unneeded_vbmeta` (main.py:111-112): vbmeta nodes whose
dependency set is empty. -/
def unneededVbmeta (vbs : List String) (g : VbmetaGraph) : List String :=
  (g.filter (fun p => decide (p.1 ∈ vbs) && p.2.isEmpty)).map (fun p => p.1)

/-- The `while True` loop of main.py:110-118: repeatedly drop vbmeta nodes
with empty dependency sets and erase them from the remaining dependency
sets, until none are left.  Fuel bounds the iteration count; each pass
removes at least one node, so `g.length + 1` always suffices. -/
def pruneGraph : Nat → List String → VbmetaGraph → VbmetaGraph
  | 0, _, g => g
  | fuel + 1, vbs, g =>
    if (unneededVbmeta vbs g).isEmpty then g
    else pruneGraph fuel vbs
      ((g.filter (fun p => decide (p.1 ∉ unneededVbmeta vbs g))).map
        (fun p => (p.1, p.2.filter (fun d => decide (d ∉ unneededVbmeta vbs g)))))

/-- The node insertion order of `graphlib.TopologicalSorter(dep_graph)`:
CPython's `add(node, *predecessors)` records first the node, then its
predecessors, in graph iteration order. -/
def nodeOrderOf (g : VbmetaGraph) : List String :=
  g.foldl (fun acc p =>
    p.2.foldl (fun a d => if d ∈ a then a else a ++ [d])
      (if p.1 ∈ acc then acc else acc ++ [p.1])) []

/-- Successor lists as CPython graphlib builds them: node `n` is appended to
the successors of each of its predecessors, so the successors of `b` are the
graph keys listing `b` as a dependency, in key order. -/
def succsOf (g : VbmetaGraph) (b : String) : List String :=
  (g.filter (fun p => decide (b ∈ p.2))).map (fun p => p.1)

/-- The nodes appended to graphlib's ready queue while `done(b)` is
processed: successors of `b` whose predecessors are all done once `b` is
(and were not all done before `b`, i.e. `b` was the last one). -/
def newlyReady (g : VbmetaGraph) (done : List String) (b : String) :
    List String :=
  (succsOf g b).filter (fun s =>
    (depsOf g s).all (fun d => decide (d ∈ done ++ [b])) &&
    !((depsOf g s).all (fun d => decide (d ∈ done))))

/-- Process one ready batch in order, collecting the next batch exactly as
the successive `done()` calls of `graphlib.static_order` do. -/
def stepBatchGo (g : VbmetaGraph) (done : List String) :
    List String → List String
  | [] => []
  | b :: rest => newlyReady g done b ++ stepBatchGo g (done ++ [b]) rest

/-- The batch loop of `graphlib.static_order`: `while t.is_active(): yield
ready; t.done(*ready)`.  `emitted` is everything yielded so far. -/
def staticOrderLoop (g : VbmetaGraph) :
    Nat → List String → List String → List String
  | 0, emitted, _ => emitted
  | _ + 1, emitted, [] => emitted
  | fuel + 1, emitted, b :: rest =>
    staticOrderLoop g fuel (emitted ++ b :: rest)
      (stepBatchGo g emitted (b :: rest))

/-- The full `static_order` output: start from the nodes with no
predecessors, in insertion order. -/
def kahnOrder (g : VbmetaGraph) : List String :=
  staticOrderLoop g ((nodeOrderOf g).length + 1) []
    ((nodeOrderOf g).filter (fun n => (depsOf g n).isEmpty))

/-- `graphlib.TopologicalSorter(dep_graph).static_order()` (main.py:120):
yields every node exactly when the graph has no cycle, and raises
`CycleError` otherwise (modelled as: all nodes emitted, or error). -/
def staticOrder (g : VbmetaGraph) : Except String (List String) :=
  if (nodeOrderOf g).all (fun n => decide (n ∈ kahnOrder g)) then
    .ok (kahnOrder g)
  else .error "CycleError: nodes are in a cycle"

/-- The reduced dependency graph: restriction followed by the pruning loop
(main.py:105-118). -/
def reducedVbmetaGraph (imagePaths vbs : List String) (graw : VbmetaGraph) :
    VbmetaGraph :=
  pruneGraph ((restrictDeps imagePaths graw).length + 1) vbs
    (restrictDeps imagePaths graw)

/-- `get_vbmeta_patch_order` (main.py:101-123): the reduced graph together
with the vbmeta members of the topological order (`order = [n for n in
full_order if n in vbmeta_images]`). -/
def getVbmetaPatchOrder (imagePaths vbs : List String) (graw : VbmetaGraph) :
    Except String (VbmetaGraph × List String) :=
  match staticOrder (reducedVbmetaGraph imagePaths vbs graw) with
  | .ok full =>
    .ok (reducedVbmetaGraph imagePaths vbs graw,
      full.filter (fun n => decide (n ∈ vbs)))
  | .error e => .error e

/-- Image paths for a two-vbmeta planner instance. -/
def cexImagePaths : List String := ["boot", "vbmeta_a", "vbmeta_b"]

/-- The two mutually independent vbmeta images, lexicographically ordered
as a, b. -/
def cexVbmetaImages : List String := ["vbmeta_a", "vbmeta_b"]

/-- A dependency graph listing `vbmeta_b` before `vbmeta_a`, both depending
only on `boot` (hence mutually independent). -/
def cexDepGraph : VbmetaGraph := [("vbmeta_b", ["boot"]), ("vbmeta_a", ["boot"])]

end Avbroot

namespace Avbroot

/-! ### Theorems for the Magisk version gate -/

/-- C10: `MagiskRootPatch.validate` accepts exactly the versions in
`[25102, 25207) ∪ [25211, 26200) ∪ [26201, 27000)`; in particular 26200 is
rejected while 26199 and 26201 pass the version-support check. -/
theorem magisk_version_gate :
    (∀ v : Nat, magiskVersionSupported v = true ↔
      ((25102 ≤ v ∧ v < 25207) ∨ (25211 ≤ v ∧ v < 26200) ∨
       (26201 ≤ v ∧ v < 27000))) ∧
    magiskVersionSupported 26200 = false ∧
    magiskVersionSupported 26199 = true ∧
    magiskVersionSupported 26201 = true := by
  refine ⟨fun v => ?_, by decide, by decide, by decide⟩
  simp [magiskVersionSupported, magiskVersSupported, rangeContains,
    List.any_cons, List.any_nil]

/-- C1 counterexample: with Magisk version 26100 and no preinit device
configured, patching does not succeed: `validate` rejects the configuration
(26100 lies in `VER_PREINIT_DEVICE = [25211, 27000)`), and the config-blob
construction itself has no value (the source would crash on
`self.preinit_device.encode`). -/
theorem magisk_26100_no_preinit_fails :
    (magiskValidate 26100 none).isOk = false ∧
    magiskConfig 26100 none "da39a3ee5e6b4b0d3255bfef95601890afd80709"
      defaultMagiskRandomSeed = none := by
  constructor
  · rfl
  · rfl

/-- C1 amended: for Magisk version 26100 a preinit device is required; with a
preinit device `p` configured and the default random seed, validation succeeds
and the generated `.backup/.magisk` content is exactly the four fixed
key-value lines followed by a `PREINITDEVICE` line, the `SHA1` line, and a
`RANDOMSEED=0xfedcba9876543210` line. -/
theorem magisk_26100_config (p sha1 : String) :
    magiskValidate 26100 (some p) = .ok () ∧
    magiskConfig 26100 (some p) sha1 defaultMagiskRandomSeed =
      some ("KEEPVERITY=true\nKEEPFORCEENCRYPT=true\nPATCHVBMETAFLAG=false\nRECOVERYMODE=false\nPREINITDEVICE="
        ++ p ++ "\nSHA1=" ++ sha1 ++ "\nRANDOMSEED=0xfedcba9876543210\n") := by
  constructor
  · rfl
  · have hx : natToHexLower defaultMagiskRandomSeed = "fedcba9876543210" := rfl
    have h1 : rangeContains verPreinitDevice 26100 = true := rfl
    have h2 : rangeContains verRandomSeed 26100 = true := rfl
    simp [magiskConfig, h1, h2, hx, String.append_assoc]
    rfl

/-! ### Theorems for patch_boot -/

/-- C6: in `patch_boot`, if `only_if_previously_signed` is set and the
original image is unsigned, the key is dropped and the output stays unsigned;
an error is raised exactly when original-key presence differs from the
effective signing-key presence; and on success the output is signed iff the
input was signed or signing remained requested after the conditional drop. -/
theorem patch_boot_key_presence (publicKeySize : Nat) (key : Option String)
    (onlyIf : Bool) :
    (publicKeySize = 0 → onlyIf = true →
      patchBootKeyCheck publicKeySize key onlyIf = .ok none) ∧
    ((patchBootKeyCheck publicKeySize key onlyIf).isOk = false ↔
      ¬((0 < publicKeySize) ↔
        (patchBootEffectiveKey publicKeySize key onlyIf).isSome = true)) ∧
    (∀ k, patchBootKeyCheck publicKeySize key onlyIf = .ok k →
      (k.isSome = true ↔ (0 < publicKeySize ∨
        (key.isSome = true ∧ ¬(onlyIf = true ∧ publicKeySize = 0))))) := by
  rcases Nat.eq_zero_or_pos publicKeySize with h | h
  · subst h
    rcases key with _ | kv <;> rcases onlyIf <;>
      simp [patchBootKeyCheck, patchBootEffectiveKey, Except.isOk, Except.toBool]
  · have hne : publicKeySize ≠ 0 := by omega
    rcases key with _ | kv <;> rcases onlyIf <;>
      simp [patchBootKeyCheck, patchBootEffectiveKey, Except.isOk, Except.toBool, hne, h]

/-- C6 witness: concrete instantiation at an unsigned original image with
`only_if_previously_signed` set and a key supplied. -/
theorem patch_boot_key_presence_witness :
    patchBootKeyCheck 0 (some "avb.key") true = .ok none :=
  (patch_boot_key_presence 0 (some "avb.key") true).1 rfl rfl

/-- C7: the algorithm lift of `patch_boot` maps `SHA256_RSA2048` to
`SHA256_RSA4096` and leaves every other algorithm name unchanged. -/
theorem algorithm_lift :
    liftAlgorithmName "SHA256_RSA2048" = "SHA256_RSA4096" ∧
    ∀ s : String, s ≠ "SHA256_RSA2048" → liftAlgorithmName s = s := by
  refine ⟨rfl, fun s hs => ?_⟩
  simp [liftAlgorithmName, hs]

/-- C7 witness: concrete instantiation at an algorithm name other than
`SHA256_RSA2048`. -/
theorem algorithm_lift_witness :
    liftAlgorithmName "SHA512_RSA8192" = "SHA512_RSA8192" :=
  algorithm_lift.2 "SHA512_RSA8192" (by decide)

end Avbroot


namespace Avbroot

/-! ### Theorems for the prepatched compatibility levels -/

/-- C3: for fatal levels 1-3, every issue at a level strictly below the fatal
level appears in the warning list (reported via the callback, which never
aborts), and `PrepatchedImage.patch` raises an error if and only if some
issue sits at a level at or above the fatal level. -/
theorem prepatched_fatal_level_partition (fatalLevel : Nat)
    (i0 i1 i2 : List String) (hlo : 1 ≤ fatalLevel) (hhi : fatalLevel ≤ 3) :
    (∀ l e, l < fatalLevel → e ∈ [i0, i1, i2].getD l [] →
      e ∈ prepatchedWarnings fatalLevel [i0, i1, i2]) ∧
    (prepatchedRaises fatalLevel [i0, i1, i2] = true ↔
      ∃ l, fatalLevel ≤ l ∧ l ≤ prepatchedMaxLevel ∧
        [i0, i1, i2].getD l [] ≠ []) := by
  have w1 : prepatchedWarnings 1 [i0, i1, i2] = i0 := by
    simp [prepatchedWarnings, prepatchedMinLevel, prepatchedMaxLevel, List.range']
  have w2 : prepatchedWarnings 2 [i0, i1, i2] = i0 ++ i1 := by
    simp [prepatchedWarnings, prepatchedMinLevel, prepatchedMaxLevel, List.range']
  have w3 : prepatchedWarnings 3 [i0, i1, i2] = i0 ++ (i1 ++ i2) := by
    simp [prepatchedWarnings, prepatchedMinLevel, prepatchedMaxLevel, List.range']
  have e1 : prepatchedErrors 1 [i0, i1, i2] = i1 ++ i2 := by
    simp [prepatchedErrors, prepatchedMinLevel, prepatchedMaxLevel, List.range']
  have e2 : prepatchedErrors 2 [i0, i1, i2] = i2 := by
    simp [prepatchedErrors, prepatchedMinLevel, prepatchedMaxLevel, List.range']
  have e3 : prepatchedErrors 3 [i0, i1, i2] = [] := by
    simp [prepatchedErrors, prepatchedMinLevel, prepatchedMaxLevel, List.range']
  have g0 : [i0, i1, i2].getD 0 [] = i0 := rfl
  have g1 : [i0, i1, i2].getD 1 [] = i1 := rfl
  have g2 : [i0, i1, i2].getD 2 [] = i2 := rfl
  interval_cases fatalLevel
  · refine ⟨fun l e hl he => ?_, ?_⟩
    · interval_cases l
      rw [w1]
      rw [g0] at he
      exact he
    · rw [prepatchedRaises, e1]
      constructor
      · intro h
        have h' : ¬(i1 = [] ∧ i2 = []) := by simpa using h
        by_cases h1 : i1 = []
        · refine ⟨2, by omega, by simp [prepatchedMaxLevel], ?_⟩
          rw [g2]
          intro h2
          exact h' ⟨h1, h2⟩
        · refine ⟨1, by omega, by simp [prepatchedMaxLevel], ?_⟩
          rw [g1]
          exact h1
      · rintro ⟨l, hl1, hl2, hl3⟩
        simp only [prepatchedMaxLevel] at hl2
        interval_cases l
        · rw [g1] at hl3
          simp [hl3]
        · rw [g2] at hl3
          simp [hl3]
  · refine ⟨fun l e hl he => ?_, ?_⟩
    · rw [w2]
      interval_cases l
      · rw [g0] at he
        exact List.mem_append_left _ he
      · rw [g1] at he
        exact List.mem_append_right _ he
    · rw [prepatchedRaises, e2]
      constructor
      · intro h
        refine ⟨2, by omega, by simp [prepatchedMaxLevel], ?_⟩
        rw [g2]
        simpa using h
      · rintro ⟨l, hl1, hl2, hl3⟩
        simp only [prepatchedMaxLevel] at hl2
        interval_cases l
        rw [g2] at hl3
        simp [hl3]
  · refine ⟨fun l e hl he => ?_, ?_⟩
    · rw [w3]
      interval_cases l
      · rw [g0] at he
        exact List.mem_append_left _ he
      · rw [g1] at he
        exact List.mem_append_right _ (List.mem_append_left _ he)
      · rw [g2] at he
        exact List.mem_append_right _ (List.mem_append_right _ he)
    · rw [prepatchedRaises, e3]
      constructor
      · intro h
        simp at h
      · rintro ⟨l, hl1, hl2, hl3⟩
        simp only [prepatchedMaxLevel] at hl2
        omega

/-- C3 witness: concrete instantiation at fatal level 2 with one level-0 and
one level-1 issue. -/
theorem prepatched_fatal_level_partition_witness :
    (∀ l e, l < 2 → e ∈ [["a"], ["b"], ([] : List String)].getD l [] →
      e ∈ prepatchedWarnings 2 [["a"], ["b"], []]) ∧
    (prepatchedRaises 2 [["a"], ["b"], []] = true ↔
      ∃ l, 2 ≤ l ∧ l ≤ prepatchedMaxLevel ∧
        [["a"], ["b"], ([] : List String)].getD l [] ≠ []) :=
  prepatched_fatal_level_partition 2 ["a"] ["b"] [] (by decide) (by decide)

/-- C2 counterexample: a prepatched image differing from the original only in
the `id` header field (a level-0 issue) does succeed at the default fatal
level 1, but the warning callback IS invoked: the level-0 issue lies below
the fatal level and is emitted as a warning. -/
theorem prepatched_id_change_warns :
    prepatchedWarns 1 (issuesList (computeIssues sampleOldImage sampleNewImage)) = true ∧
    prepatchedRaises 1 (issuesList (computeIssues sampleOldImage sampleNewImage)) = false := by
  constructor
  · rfl
  · rfl

/-- C2 amended: for every prepatched image whose only divergences from the
original are level-0 issues (changes to `id` or `os_version`),
`PrepatchedImage.patch` at the default fatal level 1 succeeds (raises no
error, so the prepatched image is adopted), and the level-0 issues are
exactly the warnings passed to the warning callback. -/
theorem prepatched_level0_only (old nw : BootImageModel)
    (hk : ∀ k, k ∈ assocKeys old.header ↔ k ∈ assocKeys nw.header)
    (hv : ∀ k, k ∈ assocKeys old.header →
      assocGet old.header k ≠ assocGet nw.header k →
      k = "id" ∨ k = "os_version")
    (hker : old.kernel = nw.kernel) (hsec : old.second = nw.second)
    (hrd : old.recovery_dtbo = nw.recovery_dtbo) (hdtb : old.dtb = nw.dtb)
    (hbc : old.bootconfig = nw.bootconfig)
    (hram : old.ramdisks ≤ nw.ramdisks)
    (hkmi : old.kmi = nw.kmi) :
    prepatchedRaises 1 (issuesList (computeIssues old nw)) = false ∧
    prepatchedWarnings 1 (issuesList (computeIssues old nw)) =
      (computeIssues old nw).1 := by
  have hnolt : ¬ nw.ramdisks < old.ramdisks := by omega
  have hadd : (assocKeys nw.header).filter
      (fun k => decide (k ∉ assocKeys old.header)) = [] := by
    rw [List.filter_eq_nil_iff]
    intro k hkm
    simpa using (hk k).mpr hkm
  have hrem : (assocKeys old.header).filter
      (fun k => decide (k ∉ assocKeys nw.header)) = [] := by
    rw [List.filter_eq_nil_iff]
    intro k hkm
    simpa using (hk k).mp hkm
  have hch : ∀ k ∈ ((assocKeys old.header).filter
        (fun k => decide (k ∈ assocKeys nw.header))).filter
      (fun k => decide (assocGet old.header k ≠ assocGet nw.header k)),
      levelOfHeaderKey k = 0 := by
    intro k hkm
    rcases List.mem_filter.mp hkm with ⟨hkc, hkd⟩
    rcases List.mem_filter.mp hkc with ⟨hko, _⟩
    have hne : assocGet old.header k ≠ assocGet nw.header k := by
      simpa using hkd
    rcases hv k hko hne with h | h <;> simp [levelOfHeaderKey, h]
  have h1h : (((assocKeys old.header).filter
        (fun k => decide (k ∈ assocKeys nw.header))).filter
      (fun k => decide (assocGet old.header k ≠ assocGet nw.header k))).filter
      (fun k => decide (levelOfHeaderKey k = 1)) = [] := by
    rw [List.filter_eq_nil_iff]
    intro k hkm
    simp [hch k hkm]
  have h2h : (((assocKeys old.header).filter
        (fun k => decide (k ∈ assocKeys nw.header))).filter
      (fun k => decide (assocGet old.header k ≠ assocGet nw.header k))).filter
      (fun k => decide (levelOfHeaderKey k = 2)) = [] := by
    rw [List.filter_eq_nil_iff]
    intro k hkm
    simp [hch k hkm]
  have hkey : computeIssues old nw = ((computeIssues old nw).1, [], []) := by
    simp only [computeIssues]
    rw [hadd, hrem, h1h, h2h]
    simp [← hker, ← hsec, ← hrd, ← hdtb, ← hbc, hkmi, hnolt,
      Bool.not_and_self, Bool.and_not_self, computeIssues]
  constructor
  · rw [prepatchedRaises]
    rw [hkey]
    simp [prepatchedErrors, prepatchedMinLevel, prepatchedMaxLevel,
      List.range', issuesList]
  · simp [prepatchedWarnings, prepatchedMinLevel, prepatchedMaxLevel,
      List.range', issuesList]

/-- C2 witness: concrete instantiation at the sample images differing only in
the `id` header field. -/
theorem prepatched_level0_only_witness :
    prepatchedRaises 1 (issuesList (computeIssues sampleOldImage sampleNewImage)) = false ∧
    prepatchedWarnings 1 (issuesList (computeIssues sampleOldImage sampleNewImage)) =
      (computeIssues sampleOldImage sampleNewImage).1 :=
  prepatched_level0_only sampleOldImage sampleNewImage (fun _ => Iff.rfl)
    (by
      intro k hkm hne
      have hk3 : k = "id" ∨ k = "os_version" ∨ k = "cmdline" := by
        simpa [sampleOldImage, assocKeys] using hkm
      rcases hk3 with h | h | h
      · exact Or.inl h
      · exact Or.inr h
      · subst h
        exact absurd (by decide) hne)
    rfl rfl rfl rfl rfl (by decide) rfl

end Avbroot

namespace Avbroot

/-! ### Theorems for the Magisk backup construction -/

/-- Dict lookup succeeds for every name present in the entry list. -/
theorem lookup_of_mem (entries : List CpioEntry) (n : String)
    (h : n ∈ entryNames entries) : ∃ e, lookupEntry entries n = some e := by
  rcases List.mem_map.mp h with ⟨e, he, hn⟩
  have hrev : e ∈ entries.reverse := List.mem_reverse.mpr he
  have hsome : (entries.reverse.find? (fun e => e.name = n)).isSome := by
    rw [List.find?_isSome]
    exact ⟨e, hrev, by simp [hn]⟩
  rcases Option.isSome_iff_exists.mp hsome with ⟨e2, he2⟩
  exact ⟨e2, he2⟩

/-- C5: after `_apply_magisk_backup`, every old name that was deleted or
whose content changed yields its old entry renamed to `.backup/<name>` in the
result; `.backup/.rmlist` is the final appended entry and its content is the
NUL-terminated concatenation of exactly the names added by the patch, sorted
lexicographically, each exactly once. -/
theorem apply_magisk_backup_closure (old_entries new_entries : List CpioEntry) :
    (∀ n, n ∈ entryNames old_entries →
      (n ∉ entryNames new_entries ∨
        ∃ eo en, lookupEntry old_entries n = some eo ∧
          lookupEntry new_entries n = some en ∧ eo.content ≠ en.content) →
      ∃ e ∈ applyMagiskBackup old_entries new_entries,
        e.name = ".backup/" ++ n ∧
        (lookupEntry old_entries n).map (fun x => x.content) = some e.content) ∧
    ((applyMagiskBackup old_entries new_entries).getLast? =
      some ⟨".backup/.rmlist", 0, rmlistContent old_entries new_entries⟩) ∧
    List.Sorted (· ≤ ·) (sortedAddedNames old_entries new_entries) ∧
    (sortedAddedNames old_entries new_entries).Nodup ∧
    (∀ n, n ∈ sortedAddedNames old_entries new_entries ↔
      (n ∈ entryNames new_entries ∧ n ∉ entryNames old_entries)) ∧
    rmlistContent old_entries new_entries =
      (sortedAddedNames old_entries new_entries).foldl
        (fun acc n => acc ++ n ++ "\x00") "" := by
  refine ⟨?_, ?_, ?_, ?_, ?_, rfl⟩
  · intro n hmem hcase
    have htarget : n ∈ backupTargets old_entries new_entries := by
      rw [backupTargets, List.mem_filter]
      refine ⟨List.mem_dedup.mpr hmem, ?_⟩
      rcases hcase with h | ⟨eo, en, heo, hen, hneq⟩
      · simp [h]
      · rw [heo, hen]
        simp [hneq]
    rcases lookup_of_mem old_entries n hmem with ⟨eo, heo⟩
    refine ⟨⟨".backup/" ++ n, eo.perms, eo.content⟩, ?_, rfl, by rw [heo]; rfl⟩
    rw [applyMagiskBackup]
    refine List.mem_append_left _ (List.mem_append_right _ ?_)
    refine List.mem_map.mpr ⟨n, htarget, ?_⟩
    rw [heo]
  · rw [applyMagiskBackup]
    exact List.getLast?_concat _
  · exact List.sorted_insertionSort _ _
  · exact ((List.perm_insertionSort _ _).nodup_iff).mpr (List.nodup_dedup _)
  · intro n
    rw [sortedAddedNames, (List.perm_insertionSort _ _).mem_iff, addedNames,
      List.mem_dedup, List.mem_filter]
    simp

end Avbroot

namespace Avbroot

/-! ### Theorems for OtaCertPatch -/

/-- Entries whose name is not the otacerts path survive the replacement. -/
theorem replace_keeps_nonmatch (cert : List Nat) (l : List OtaEntry)
    (e : OtaEntry) (he : e ∈ l) (hn : e.name ≠ otacertsPath) :
    e ∈ replaceOtacerts cert l := by
  induction l with
  | nil => simp at he
  | cons x rest ih =>
    rw [replaceOtacerts]
    rcases List.mem_cons.mp he with rfl | hrest
    · rw [if_neg hn]
      exact List.mem_cons_self _ _
    · by_cases hx : x.name = otacertsPath
      · rw [if_pos hx]
        exact List.mem_cons_of_mem _ hrest
      · rw [if_neg hx]
        exact List.mem_cons_of_mem _ (ih hrest)

/-- Under per-ramdisk name uniqueness, every entry named `OTACERTS_PATH` in
the replaced list carries the new archive. -/
theorem replace_matched (cert : List Nat) (l : List OtaEntry)
    (hnd : (l.map (fun e => e.name)).Nodup) :
    ∀ e ∈ replaceOtacerts cert l, e.name = otacertsPath →
      e.content = otacertsArchive cert := by
  induction l with
  | nil => simp [replaceOtacerts]
  | cons x rest ih =>
    rw [List.map_cons, List.nodup_cons] at hnd
    intro e he hname
    rw [replaceOtacerts] at he
    by_cases hx : x.name = otacertsPath
    · rw [if_pos hx] at he
      rcases List.mem_cons.mp he with rfl | hrest
      · rfl
      · exfalso
        apply hnd.1
        rw [hx, ← hname]
        exact List.mem_map.mpr ⟨e, hrest, rfl⟩
    · rw [if_neg hx] at he
      rcases List.mem_cons.mp he with rfl | hrest
      · exact absurd hname hx
      · exact ih hnd.2 e hrest hname

/-- Zipping a list with its own image under a map pairs each element with
its image. -/
theorem zip_map_self {α β : Type} (f : α → β) (l : List α) :
    l.zip (l.map f) = l.map (fun a => (a, f a)) := by
  induction l with
  | nil => rfl
  | cons x rest ih => simp [ih]

/-- C8: `OtaCertPatch.patch` raises exactly when no ramdisk contains an
entry named `system/etc/security/otacerts.zip`; on success, in each ramdisk
(paired with its patched counterpart) every entry with that name — unique
per the ramdisk name-uniqueness invariant — now holds the zip archive with
the single entry `ota.x509.pem` containing the user's certificate, and every
other entry is preserved. -/
theorem ota_cert_patch_spec (cert : List Nat)
    (ramdisks : List (List OtaEntry)) :
    ((otaCertPatch cert ramdisks).isOk = false ↔
      ∀ rd ∈ ramdisks, ∀ e ∈ rd, e.name ≠ otacertsPath) ∧
    (∀ out, otaCertPatch cert ramdisks = .ok out →
      out.length = ramdisks.length ∧
      ∀ p ∈ ramdisks.zip out,
        ((p.1.map (fun e => e.name)).Nodup →
          ∀ e ∈ p.2, e.name = otacertsPath →
            e.content = otacertsArchive cert) ∧
        (∀ e ∈ p.1, e.name ≠ otacertsPath → e ∈ p.2)) := by
  constructor
  · rw [otaCertPatch]
    by_cases h : ramdisks.any ramdiskHasOtacerts
    · rw [if_pos h]
      simp only [Except.isOk, Except.toBool]
      constructor
      · intro hfalse
        exact absurd hfalse (by decide)
      · intro hall
        exfalso
        rcases List.any_eq_true.mp h with ⟨rd, hrd, hany⟩
        rcases List.any_eq_true.mp hany with ⟨e, he, hename⟩
        exact hall rd hrd e he (by simpa using hename)
    · rw [if_neg h]
      simp only [Except.isOk, Except.toBool]
      constructor
      · intro _ rd hrd e he hename
        apply h
        refine List.any_eq_true.mpr ⟨rd, hrd, ?_⟩
        exact List.any_eq_true.mpr ⟨e, he, by simpa using hename⟩
      · intro _
        trivial
  · intro out hout
    rw [otaCertPatch] at hout
    by_cases h : ramdisks.any ramdiskHasOtacerts
    · rw [if_pos h] at hout
      simp only [Except.ok.injEq] at hout
      subst hout
      constructor
      · simp
      · intro p hp
        rw [zip_map_self] at hp
        rcases List.mem_map.mp hp with ⟨rd, hrd, rfl⟩
        constructor
        · intro hnd e he hename
          by_cases hhas : ramdiskHasOtacerts rd
          · rw [if_pos hhas] at he
            exact replace_matched cert rd hnd e he hename
          · rw [if_neg hhas] at he
            exfalso
            apply hhas
            exact List.any_eq_true.mpr ⟨e, he, by simpa using hename⟩
        · intro e he hename
          by_cases hhas : ramdiskHasOtacerts rd
          · rw [if_pos hhas]
            exact replace_keeps_nonmatch cert rd e he hename
          · rw [if_neg hhas]
            exact he
    · rw [if_neg h] at hout
      exact absurd hout (by simp)

end Avbroot

namespace Avbroot

/-! ### Theorems for the zip re-emitter ordering -/

/-- When every name still missing occurs in the remaining infolist, the scan
terminates with an empty missing set. -/
theorem scan_missing_empty (l : List String) :
    ∀ (i : Nat) (m : List String) (ip ipr : Int), (∀ x ∈ m, x ∈ l) →
      (scanInfolist l i m ip ipr).1 = [] := by
  induction l with
  | nil =>
    intro i m ip ipr hm
    have hnil : m = [] := List.eq_nil_iff_forall_not_mem.mpr
      (fun a ha => List.not_mem_nil a (hm a ha))
    rw [hnil, scanInfolist]
  | cons name rest ih =>
    intro i m ip ipr hm
    have hsub : ∀ x ∈ m.filter (fun v => decide (v ≠ name)), x ∈ rest := by
      intro x hx
      rcases List.mem_filter.mp hx with ⟨hxm, hxne⟩
      rcases List.mem_cons.mp (hm x hxm) with rfl | h
      · simp at hxne
      · exact h
    rw [scanInfolist]
    generalize (if name = pathPayload then ((i : Nat) : Int) else ip) = ip1
    generalize (if name = pathProperties then ((i : Nat) : Int) else ipr) = ipr1
    split
    · next hb =>
      simp only [Bool.and_eq_true] at hb
      exact List.isEmpty_iff.mp hb.1.1
    · exact ih _ _ _ _ hsub

/-- The payload index is untouched by a scan over names that never mention
`payload.bin`. -/
theorem scan_pay_unchanged (l : List String) (hl : pathPayload ∉ l) :
    ∀ (i : Nat) (m : List String) (ip ipr : Int),
      (scanInfolist l i m ip ipr).2.1 = ip := by
  induction l with
  | nil => intro i m ip ipr; rw [scanInfolist]
  | cons name rest ih =>
    intro i m ip ipr
    have hne : ¬(name = pathPayload) := fun h => hl (by simp [h])
    rw [scanInfolist]
    simp only [if_neg hne]
    generalize (if name = pathProperties then ((i : Nat) : Int) else ipr) = ipr1
    split
    · rfl
    · exact ih (fun h => hl (List.mem_cons_of_mem _ h)) _ _ _ _

/-- The properties index is untouched by a scan over names that never
mention `payload_properties.txt`. -/
theorem scan_prop_unchanged (l : List String) (hl : pathProperties ∉ l) :
    ∀ (i : Nat) (m : List String) (ip ipr : Int),
      (scanInfolist l i m ip ipr).2.2 = ipr := by
  induction l with
  | nil => intro i m ip ipr; rw [scanInfolist]
  | cons name rest ih =>
    intro i m ip ipr
    have hne : ¬(name = pathProperties) := fun h => hl (by simp [h])
    rw [scanInfolist]
    simp only [if_neg hne]
    generalize (if name = pathPayload then ((i : Nat) : Int) else ip) = ip1
    split
    · rfl
    · exact ih (fun h => hl (List.mem_cons_of_mem _ h)) _ _ _ _

/-- Scanning a list containing `payload.bin` exactly once, starting from an
unset (negative) payload index, yields the absolute index of that entry. -/
theorem scan_pay_found (l2 : List String) (h2 : pathPayload ∉ l2)
    (l1 : List String) (h1 : pathPayload ∉ l1) :
    ∀ (i : Nat) (m : List String) (ip ipr : Int), ip < 0 →
      (scanInfolist (l1 ++ pathPayload :: l2) i m ip ipr).2.1 =
        ((i + l1.length : Nat) : Int) := by
  induction l1 with
  | nil =>
    intro i m ip ipr hip
    rw [List.nil_append, scanInfolist,
      if_neg (show ¬(pathPayload = pathProperties) by decide)]
    split
    · split
      · simp
      · rw [scan_pay_unchanged _ h2]
        simp
    · next hcontra => exact absurd rfl hcontra
  | cons x t ih =>
    intro i m ip ipr hip
    have hx : ¬(x = pathPayload) := fun h => h1 (by simp [h])
    have h1t : pathPayload ∉ t := fun h => h1 (List.mem_cons_of_mem _ h)
    rw [List.cons_append, scanInfolist]
    simp only [if_neg hx]
    have hcond : ¬(((m.filter (fun v => decide (v ≠ x))).isEmpty &&
        decide (0 ≤ ip) &&
        decide (0 ≤ if x = pathProperties then ((i : Nat) : Int) else ipr)) = true) := by
      intro hc
      simp only [Bool.and_eq_true] at hc
      exact absurd (of_decide_eq_true hc.1.2) (by omega)
    rw [if_neg hcond]
    rw [ih h1t (i + 1) (m.filter (fun v => decide (v ≠ x))) ip
      (if x = pathProperties then ((i : Nat) : Int) else ipr) hip]
    simp only [List.length_cons]
    push_cast
    omega

/-- Scanning a list containing `payload_properties.txt` exactly once,
starting from an unset properties index, yields its absolute index. -/
theorem scan_prop_found (l2 : List String) (h2 : pathProperties ∉ l2)
    (l1 : List String) (h1 : pathProperties ∉ l1) :
    ∀ (i : Nat) (m : List String) (ip ipr : Int), ipr < 0 →
      (scanInfolist (l1 ++ pathProperties :: l2) i m ip ipr).2.2 =
        ((i + l1.length : Nat) : Int) := by
  induction l1 with
  | nil =>
    intro i m ip ipr hipr
    rw [List.nil_append, scanInfolist,
      if_neg (show ¬(pathProperties = pathPayload) by decide)]
    split
    · split
      · simp
      · rw [scan_prop_unchanged _ h2]
        simp
    · next hcontra => exact absurd rfl hcontra
  | cons x t ih =>
    intro i m ip ipr hipr
    have hx : ¬(x = pathProperties) := fun h => h1 (by simp [h])
    have h1t : pathProperties ∉ t := fun h => h1 (List.mem_cons_of_mem _ h)
    rw [List.cons_append, scanInfolist]
    simp only [if_neg hx]
    have hcond : ¬(((m.filter (fun v => decide (v ≠ x))).isEmpty &&
        decide (0 ≤ if x = pathPayload then ((i : Nat) : Int) else ip) &&
        decide (0 ≤ ipr)) = true) := by
      intro hc
      simp only [Bool.and_eq_true] at hc
      exact absurd (of_decide_eq_true hc.2) (by omega)
    rw [if_neg hcond]
    rw [ih h1t (i + 1) (m.filter (fun v => decide (v ≠ x)))
      (if x = pathPayload then ((i : Nat) : Int) else ip) ipr hipr]
    simp only [List.length_cons]
    push_cast
    omega

/-- An element occurring exactly once splits its list into a prefix and a
suffix free of it. -/
theorem count_one_split (l : List String) (x : String) (h : l.count x = 1) :
    ∃ l1 l2, l = l1 ++ x :: l2 ∧ x ∉ l1 ∧ x ∉ l2 := by
  induction l with
  | nil => simp at h
  | cons y t ih =>
    by_cases hy : y = x
    · subst hy
      rw [List.count_cons_self] at h
      have ht : t.count y = 0 := by omega
      refine ⟨[], t, rfl, by simp, ?_⟩
      intro hmem
      rw [List.count_eq_zero] at ht
      exact ht hmem
    · rw [List.count_cons_of_ne (fun hh => hy hh.symm)] at h
      rcases ih h with ⟨l1, l2, rfl, h1, h2⟩
      refine ⟨y :: l1, l2, rfl, ?_, h2⟩
      intro hm
      rcases List.mem_cons.mp hm with rfl | hm2
      · exact hy rfl
      · exact h1 hm2

/-- Reading at the length of the prefix retrieves the split element. -/
theorem getD_append_len (l1 l2 : List String) (x : String) :
    (l1 ++ x :: l2).getD l1.length "" = x := by
  induction l1 with
  | nil => rfl
  | cons y t ih => simpa using ih

/-- Reading an updated position retrieves the written value. -/
theorem getD_set_self (l : List String) (j : Nat) (a : String)
    (h : j < l.length) : (l.set j a).getD j "" = a := by
  induction l generalizing j with
  | nil => simp at h
  | cons y t ih =>
    cases j with
    | zero => rfl
    | succ j => exact ih j (by simpa using h)

/-- Reading any other position is unaffected by an update. -/
theorem getD_set_ne (l : List String) (i j : Nat) (a : String) (hne : i ≠ j) :
    (l.set i a).getD j "" = l.getD j "" := by
  rw [List.getD_eq_getElem?_getD, List.getD_eq_getElem?_getD,
    List.getElem?_set_ne hne]

/-- When an element occurs exactly once, reading any other position never
retrieves it. -/
theorem getD_ne_outside (l1 l2 : List String) (x : String) (hx1 : x ∉ l1)
    (hx2 : x ∉ l2) (hne : x ≠ "") :
    ∀ j, j ≠ l1.length → (l1 ++ x :: l2).getD j "" ≠ x := by
  intro j hj
  rw [List.getD_eq_getElem?_getD]
  by_cases hlt : j < l1.length
  · rw [List.getElem?_append_left hlt, List.getElem?_eq_getElem hlt]
    intro hcontra
    simp only [Option.getD_some] at hcontra
    exact hx1 (hcontra ▸ List.getElem_mem hlt)
  · have hgt : l1.length < j := by omega
    rw [List.getElem?_append_right (by omega)]
    have hsub : j - l1.length = (j - l1.length - 1) + 1 := by omega
    rw [hsub, List.getElem?_cons_succ]
    by_cases h2 : j - l1.length - 1 < l2.length
    · rw [List.getElem?_eq_getElem h2]
      intro hc
      simp only [Option.getD_some] at hc
      exact hx2 (hc ▸ List.getElem_mem h2)
    · rw [List.getElem?_eq_none (by omega)]
      intro hc
      simp only [Option.getD_none] at hc
      exact hne hc.symm

/-- C9: in `patch_ota_zip`, for an input infolist holding the five required
entries with unique payload and properties entries at positions `p` and `q`,
the computed processing order always places `payload.bin` before
`payload_properties.txt`: when the input violates that order exactly those
two positions are swapped and every other entry keeps its input position;
otherwise the order is the input order. -/
theorem patch_ota_zip_order_spec (names : List String)
    (hpay : names.count pathPayload = 1)
    (hprop : names.count pathProperties = 1)
    (hmd : pathMetadata ∈ names) (hmdp : pathMetadataPb ∈ names)
    (hoc : pathOtacert ∈ names) :
    ∃ p q out, p < names.length ∧ q < names.length ∧ p ≠ q ∧
      names.getD p "" = pathPayload ∧ names.getD q "" = pathProperties ∧
      patchOtaZipOrder names = .ok out ∧
      out.length = names.length ∧
      out.getD (min p q) "" = pathPayload ∧
      out.getD (max p q) "" = pathProperties ∧
      (∀ j, j ≠ p → j ≠ q → out.getD j "" = names.getD j "") ∧
      (p < q → out = names) ∧
      (q < p → out = swapIndices names p q) := by
  obtain ⟨a1, a2, hadec, ha1, ha2⟩ := count_one_split names pathPayload hpay
  obtain ⟨b1, b2, hbdec, hb1, hb2⟩ := count_one_split names pathProperties hprop
  have hplen : a1.length < names.length := by
    rw [hadec, List.length_append, List.length_cons]
    omega
  have hqlen : b1.length < names.length := by
    rw [hbdec, List.length_append, List.length_cons]
    omega
  have hgp : names.getD a1.length "" = pathPayload := by
    rw [hadec] at *
    exact getD_append_len a1 a2 pathPayload
  have hgq : names.getD b1.length "" = pathProperties := by
    rw [hbdec] at *
    exact getD_append_len b1 b2 pathProperties
  have hpq : a1.length ≠ b1.length := by
    intro h
    rw [h, hgq] at hgp
    exact absurd hgp (by decide)
  have hscan1 : (scanInfolist names 0 requiredZipPaths (-1) (-1)).2.1 =
      ((a1.length : Nat) : Int) := by
    rw [hadec]
    have := scan_pay_found a2 ha2 a1 ha1 0 requiredZipPaths (-1) (-1)
      (by omega)
    simpa using this
  have hscan2 : (scanInfolist names 0 requiredZipPaths (-1) (-1)).2.2 =
      ((b1.length : Nat) : Int) := by
    rw [hbdec]
    have := scan_prop_found b2 hb2 b1 hb1 0 requiredZipPaths (-1) (-1)
      (by omega)
    simpa using this
  have hmiss : (scanInfolist names 0 requiredZipPaths (-1) (-1)).1 = [] := by
    apply scan_missing_empty
    intro x hx
    have hpaymem : pathPayload ∈ names := by
      rw [hadec]
      exact List.mem_append_right _ (List.mem_cons_self _ _)
    have hpropmem : pathProperties ∈ names := by
      rw [hbdec]
      exact List.mem_append_right _ (List.mem_cons_self _ _)
    rcases (by simpa [requiredZipPaths] using hx :
        x = pathMetadata ∨ x = pathMetadataPb ∨ x = pathOtacert ∨
        x = pathPayload ∨ x = pathProperties) with
      rfl | rfl | rfl | rfl | rfl
    · exact hmd
    · exact hmdp
    · exact hoc
    · exact hpaymem
    · exact hpropmem
  rcases Nat.lt_trichotomy a1.length b1.length with hlt | heq | hgt
  · -- payload before properties: no swap
    refine ⟨a1.length, b1.length, names, hplen, hqlen, hpq, hgp, hgq, ?_,
      rfl, ?_, ?_, fun j _ _ => rfl, fun _ => rfl, fun h => absurd h (by omega)⟩
    · rw [patchOtaZipOrder, hmiss, hscan1, hscan2]
      have hnotlt : ¬(((b1.length : Nat) : Int) < ((a1.length : Nat) : Int)) := by
        omega
      simp [hnotlt]
    · rw [min_eq_left (le_of_lt hlt)]
      exact hgp
    · rw [max_eq_right (le_of_lt hlt)]
      exact hgq
  · exact absurd heq hpq
  · -- properties before payload: swap
    refine ⟨a1.length, b1.length, swapIndices names a1.length b1.length,
      hplen, hqlen, hpq, hgp, hgq, ?_, ?_, ?_, ?_, ?_,
      fun h => absurd h (by omega), fun _ => rfl⟩
    · rw [patchOtaZipOrder, hmiss, hscan1, hscan2]
      have hlt2 : ((b1.length : Nat) : Int) < ((a1.length : Nat) : Int) := by
        omega
      simp [hlt2]
    · rw [swapIndices]
      rw [List.length_set, List.length_set]
    · rw [min_eq_right (le_of_lt hgt), swapIndices]
      rw [getD_set_self _ _ _ (by rw [List.length_set]; exact hqlen)]
      exact hgp
    · rw [max_eq_left (le_of_lt hgt), swapIndices]
      rw [getD_set_ne _ _ _ _ (fun h => hpq h.symm)]
      rw [getD_set_self _ _ _ hplen]
      exact hgq
    · intro j hj1 hj2
      rw [swapIndices]
      rw [getD_set_ne _ _ _ _ (fun h => hj2 h.symm)]
      rw [getD_set_ne _ _ _ _ (fun h => hj1 h.symm)]

/-- C9 witness: concrete instantiation at an infolist whose properties entry
precedes its payload entry, exercising the swap. -/
theorem patch_ota_zip_order_spec_witness :
    ∃ p q out, p < sampleInfolist.length ∧ q < sampleInfolist.length ∧
      p ≠ q ∧
      sampleInfolist.getD p "" = pathPayload ∧
      sampleInfolist.getD q "" = pathProperties ∧
      patchOtaZipOrder sampleInfolist = .ok out ∧
      out.length = sampleInfolist.length ∧
      out.getD (min p q) "" = pathPayload ∧
      out.getD (max p q) "" = pathProperties ∧
      (∀ j, j ≠ p → j ≠ q → out.getD j "" = sampleInfolist.getD j "") ∧
      (p < q → out = sampleInfolist) ∧
      (q < p → out = swapIndices sampleInfolist p q) :=
  patch_ota_zip_order_spec sampleInfolist (by decide) (by decide) (by decide)
    (by decide) (by decide)

end Avbroot

namespace Avbroot

/-! ### Theorems for the vbmeta patch order -/

/-- A list is topologically sorted for `g` when every position only depends
on earlier positions. -/
def TopoAt (g : VbmetaGraph) (l : List String) : Prop :=
  ∀ i, i < l.length → depsOf g (l.getD i "") ⊆ l.take i

/-- An in-bounds default read is a member. -/
theorem getD_mem' (l : List String) (j : Nat) (h : j < l.length) :
    l.getD j "" ∈ l := by
  rw [List.getD_eq_getElem?_getD, List.getElem?_eq_getElem h]
  simp only [Option.getD_some]
  exact List.getElem_mem h

/-- Default reads in the left part of an append. -/
theorem getD_append_lt (l1 l2 : List String) (i : Nat) (h : i < l1.length) :
    (l1 ++ l2).getD i "" = l1.getD i "" := by
  rw [List.getD_eq_getElem?_getD, List.getD_eq_getElem?_getD,
    List.getElem?_append_left h]

/-- Default reads in the right part of an append. -/
theorem getD_append_ge (l1 l2 : List String) (i : Nat) (h : l1.length ≤ i) :
    (l1 ++ l2).getD i "" = l2.getD (i - l1.length) "" := by
  rw [List.getD_eq_getElem?_getD, List.getD_eq_getElem?_getD,
    List.getElem?_append_right h]

/-- Taking at most the left length of an append stays in the left part. -/
theorem take_append_le (l1 l2 : List String) (i : Nat) (h : i ≤ l1.length) :
    (l1 ++ l2).take i = l1.take i := by
  induction l1 generalizing i with
  | nil =>
    have : i = 0 := by simpa using h
    rw [this]
    rfl
  | cons x t ih =>
    cases i with
    | zero => rfl
    | succ i =>
      rw [List.cons_append, List.take_succ_cons, List.take_succ_cons,
        ih i (by simpa using h)]

/-- Taking beyond the left length of an append keeps the whole left part. -/
theorem take_append_full (l1 l2 : List String) (i : Nat)
    (h : l1.length ≤ i) :
    (l1 ++ l2).take i = l1 ++ l2.take (i - l1.length) := by
  induction l1 generalizing i with
  | nil => rfl
  | cons x t ih =>
    cases i with
    | zero => simp at h
    | succ i =>
      rw [List.cons_append, List.take_succ_cons, List.length_cons,
        ih i (by simpa using h)]
      simp

/-- Every node of the next batch has all its dependencies inside the emitted
prefix plus the current batch. -/
theorem stepBatchGo_deps (g : VbmetaGraph) :
    ∀ (batch done : List String) (s : String),
      s ∈ stepBatchGo g done batch → depsOf g s ⊆ done ++ batch := by
  intro batch
  induction batch with
  | nil => intro done s hs; simp [stepBatchGo] at hs
  | cons b rest ih =>
    intro done s hs
    rw [stepBatchGo] at hs
    rcases List.mem_append.mp hs with hnew | hrec
    · rcases List.mem_filter.mp hnew with ⟨_, hcond⟩
      have hall := (by simpa using hcond :
        ((depsOf g s).all (fun d => decide (d ∈ done ++ [b])) = true) ∧
        ¬((depsOf g s).all (fun d => decide (d ∈ done)) = true)).1
      intro d hd
      have hdm := List.all_eq_true.mp hall d hd
      have hdmem : d ∈ done ++ [b] := by simpa using hdm
      rcases List.mem_append.mp hdmem with h1 | h1
      · exact List.mem_append_left _ h1
      · have : d = b := by simpa using h1
        rw [this]
        exact List.mem_append_right _ (List.mem_cons_self _ _)
    · have hsub := ih (done ++ [b]) s hrec
      intro d hd
      have := hsub hd
      rw [List.append_assoc] at this
      simpa using this

/-- Appending a batch whose dependencies are all emitted preserves the
topological-sorting invariant. -/
theorem topo_extend (g : VbmetaGraph) (emitted batch : List String)
    (he : TopoAt g emitted)
    (hb : ∀ s ∈ batch, depsOf g s ⊆ emitted) :
    TopoAt g (emitted ++ batch) := by
  intro i hi
  by_cases hlt : i < emitted.length
  · rw [getD_append_lt _ _ _ hlt, take_append_le _ _ _ (le_of_lt hlt)]
    exact he i hlt
  · have hge : emitted.length ≤ i := by omega
    rw [getD_append_ge _ _ _ hge]
    have hbl : i - emitted.length < batch.length := by
      rw [List.length_append] at hi
      omega
    have hmem := getD_mem' batch (i - emitted.length) hbl
    have hsub := hb _ hmem
    intro d hd
    rw [take_append_full _ _ _ hge]
    exact List.mem_append_left _ (hsub hd)

/-- The batch loop maintains the topological-sorting invariant. -/
theorem staticOrderLoop_topo (g : VbmetaGraph) :
    ∀ (fuel : Nat) (emitted batch : List String),
      TopoAt g emitted → (∀ s ∈ batch, depsOf g s ⊆ emitted) →
      TopoAt g (staticOrderLoop g fuel emitted batch) := by
  intro fuel
  induction fuel with
  | zero => intro emitted batch he _; exact he
  | succ fuel ih =>
    intro emitted batch he hb
    cases batch with
    | nil => exact he
    | cons b rest =>
      rw [staticOrderLoop]
      apply ih
      · exact topo_extend g emitted (b :: rest) he hb
      · intro s hs
        exact stepBatchGo_deps g (b :: rest) emitted s hs

/-- The graphlib static order is topologically sorted. -/
theorem kahnOrder_topo (g : VbmetaGraph) : TopoAt g (kahnOrder g) := by
  apply staticOrderLoop_topo
  · intro i hi
    simp at hi
  · intro s hs
    rcases List.mem_filter.mp hs with ⟨_, hdeps⟩
    have : depsOf g s = [] := by simpa using hdeps
    rw [this]
    exact List.nil_subset _

/-- In a topologically sorted list, every occurrence only depends on the
prefix before it. -/
theorem topo_split (g : VbmetaGraph) (l : List String) (ht : TopoAt g l) :
    ∀ (l1 : List String) (b : String) (l2 : List String),
      l = l1 ++ b :: l2 → depsOf g b ⊆ l1 := by
  intro l1 b l2 hdec
  have hlen : l1.length < l.length := by
    rw [hdec, List.length_append, List.length_cons]
    omega
  have hget : l.getD l1.length "" = b := by
    rw [hdec]
    exact getD_append_len l1 l2 b
  have htake : l.take l1.length = l1 := by
    rw [hdec, take_append_le _ _ _ (le_refl _), List.take_length]
  have := ht l1.length hlen
  rw [hget, htake] at this
  exact this

/-- A decomposition of a filtered list lifts to a decomposition of the
original list. -/
theorem filter_split (p : String → Bool) :
    ∀ (l l1 : List String) (b : String) (l2 : List String),
      l.filter p = l1 ++ b :: l2 →
      ∃ m1 m2, l = m1 ++ b :: m2 ∧ m1.filter p = l1 := by
  intro l
  induction l with
  | nil =>
    intro l1 b l2 h
    rw [List.filter_nil] at h
    exact absurd h.symm (List.append_ne_nil_of_right_ne_nil _ (by simp))
  | cons x t ih =>
    intro l1 b l2 h
    rw [List.filter_cons] at h
    by_cases hp : p x
    · rw [if_pos hp] at h
      cases l1 with
      | nil =>
        rw [List.nil_append] at h
        have hx : x = b := (List.cons.injEq _ _ _ _).mp h |>.1
        refine ⟨[], t, by rw [hx]; rfl, rfl⟩
      | cons y l1t =>
        have hxy : x = y := (List.cons.injEq _ _ _ _).mp h |>.1
        have hrest : t.filter p = l1t ++ b :: l2 :=
          (List.cons.injEq _ _ _ _).mp h |>.2
        rcases ih l1t b l2 hrest with ⟨m1, m2, hdec, hf⟩
        refine ⟨x :: m1, m2, by rw [hdec, List.cons_append], ?_⟩
        rw [List.filter_cons, if_pos hp, hf, hxy]
    · rw [if_neg hp] at h
      rcases ih l1 b l2 h with ⟨m1, m2, hdec, hf⟩
      refine ⟨x :: m1, m2, by rw [hdec, List.cons_append], ?_⟩
      rw [List.filter_cons, if_neg hp, hf]

/-- Filtering away at least one element strictly shrinks a graph. -/
theorem filter_length_lt (p : String × List String → Bool) :
    ∀ (l : VbmetaGraph) (x : String × List String), x ∈ l → p x = false →
      (l.filter p).length < l.length := by
  intro l
  induction l with
  | nil => intro x hx; simp at hx
  | cons y t ih =>
    intro x hx hpx
    rcases List.mem_cons.mp hx with rfl | hxt
    · rw [List.filter_cons, hpx, List.length_cons]
      exact Nat.lt_succ_of_le (List.length_filter_le _ _)
    · rw [List.filter_cons, List.length_cons]
      by_cases hpy : p y
      · rw [if_pos hpy, List.length_cons]
        exact Nat.succ_lt_succ (ih x hxt hpx)
      · rw [if_neg hpy]
        exact Nat.lt_trans (ih x hxt hpx) (Nat.lt_succ_self _)

/-- With sufficient fuel the pruning loop reaches its fixed point: no vbmeta
node with an empty dependency set remains. -/
theorem prune_fixed (vbs : List String) :
    ∀ (fuel : Nat) (g : VbmetaGraph), g.length < fuel →
      unneededVbmeta vbs (pruneGraph fuel vbs g) = [] := by
  intro fuel
  induction fuel with
  | zero => intro g h; omega
  | succ fuel ih =>
    intro g hlen
    rw [pruneGraph]
    by_cases he : (unneededVbmeta vbs g).isEmpty
    · rw [if_pos he]
      exact List.isEmpty_iff.mp he
    · rw [if_neg he]
      apply ih
      have hne : unneededVbmeta vbs g ≠ [] := by
        intro hnil
        rw [unneededVbmeta] at hnil
        exact he (by rw [unneededVbmeta, hnil]; rfl)
      rcases List.exists_mem_of_ne_nil _ hne with ⟨n, hn⟩
      rcases List.mem_map.mp hn with ⟨q, hq, hqn⟩
      have hql : (g.filter
          (fun p => decide (p.1 ∉ unneededVbmeta vbs g))).length < g.length := by
        apply filter_length_lt _ _ q (List.mem_filter.mp hq).1
        have : q.1 ∈ unneededVbmeta vbs g := by
          rw [hqn]
          exact hn
        simp [this]
      rw [List.length_map]
      omega

/-- An empty `unneeded` round means every vbmeta node kept in the graph has
a nonempty dependency set. -/
theorem unneeded_nil_iff (vbs : List String) (g : VbmetaGraph)
    (h : unneededVbmeta vbs g = []) :
    ∀ p ∈ g, p.1 ∈ vbs → p.2 ≠ [] := by
  intro p hp hvb hnil
  rw [unneededVbmeta] at h
  rcases List.map_eq_nil_iff.mp h with hfil
  have := List.filter_eq_nil_iff.mp hfil p hp
  apply this
  simp [hvb, hnil]

/-- C4 amended: `get_vbmeta_patch_order` reaches the fixed point of removing
vbmeta images with empty restricted dependency sets (no such image remains
in the reduced graph), and the returned order is a topological sort of the
reduced graph: every vbmeta image in it appears after every vbmeta image it
depends on.  (Ties among mutually independent images follow graph insertion
order, not lexicographic name -- see the counterexample.) -/
theorem get_vbmeta_patch_order_topological (imagePaths vbs : List String)
    (graw : VbmetaGraph) (reduced : VbmetaGraph) (order : List String)
    (h : getVbmetaPatchOrder imagePaths vbs graw = .ok (reduced, order)) :
    (∀ p ∈ reduced, p.1 ∈ vbs → p.2 ≠ []) ∧
    (∀ (l1 : List String) (b : String) (l2 : List String),
      order = l1 ++ b :: l2 →
      ∀ a ∈ depsOf reduced b, a ∈ vbs → a ∈ l1) := by
  rw [getVbmetaPatchOrder] at h
  rcases hso : staticOrder (reducedVbmetaGraph imagePaths vbs graw) with e | full
  · rw [hso] at h
    exact absurd h (by simp)
  · rw [hso] at h
    simp only [Except.ok.injEq, Prod.mk.injEq] at h
    rcases h with ⟨hred, hord⟩
    have hfull : full = kahnOrder (reducedVbmetaGraph imagePaths vbs graw) := by
      rw [staticOrder] at hso
      by_cases hall : ((nodeOrderOf (reducedVbmetaGraph imagePaths vbs graw)).all
          (fun n => decide (n ∈ kahnOrder (reducedVbmetaGraph imagePaths vbs graw)))) = true
      · rw [if_pos hall] at hso
        exact (Except.ok.inj hso).symm
      · rw [if_neg hall] at hso
        exact absurd hso (by simp)
    constructor
    · intro p hp
      apply unneeded_nil_iff vbs reduced _ p hp
      rw [← hred, reducedVbmetaGraph]
      exact prune_fixed vbs _ _ (by omega)
    · intro l1 b l2 hdec a ha havb
      rw [← hord] at hdec
      rcases filter_split _ full l1 b l2 hdec with ⟨m1, m2, hfdec, hm1⟩
      have htopo := kahnOrder_topo (reducedVbmetaGraph imagePaths vbs graw)
      rw [← hfull] at htopo
      have hsub := topo_split _ full htopo m1 b m2 hfdec
      have ham1 : a ∈ m1 := by
        apply hsub
        rw [← hred] at ha
        exact ha
      rw [← hm1]
      rw [List.mem_filter]
      exact ⟨ham1, by simp [havb]⟩

/-- C4 counterexample: on a graph whose insertion order lists `vbmeta_b`
before `vbmeta_a`, with both images mutually independent (identical
dependency sets), the returned order is `[vbmeta_b, vbmeta_a]` even though
`vbmeta_a` precedes `vbmeta_b` lexicographically: ties are NOT broken by
name. -/
theorem vbmeta_order_not_lexicographic :
    getVbmetaPatchOrder cexImagePaths cexVbmetaImages cexDepGraph =
      .ok ([("vbmeta_b", ["boot"]), ("vbmeta_a", ["boot"])],
        ["vbmeta_b", "vbmeta_a"]) ∧
    ("vbmeta_a" : String).data < ("vbmeta_b" : String).data ∧
    depsOf [("vbmeta_b", ["boot"]), ("vbmeta_a", ["boot"])] "vbmeta_a" =
      depsOf [("vbmeta_b", ["boot"]), ("vbmeta_a", ["boot"])] "vbmeta_b" := by
  refine ⟨?_, ?_, rfl⟩
  · rfl
  · decide

/-- C4 witness: concrete instantiation of the topological-order theorem at
the two-vbmeta planner instance. -/
theorem get_vbmeta_patch_order_topological_witness :
    (∀ p ∈ ([("vbmeta_b", ["boot"]), ("vbmeta_a", ["boot"])] : VbmetaGraph),
      p.1 ∈ cexVbmetaImages → p.2 ≠ []) ∧
    (∀ (l1 : List String) (b : String) (l2 : List String),
      (["vbmeta_b", "vbmeta_a"] : List String) = l1 ++ b :: l2 →
      ∀ a ∈ depsOf [("vbmeta_b", ["boot"]), ("vbmeta_a", ["boot"])] b,
        a ∈ cexVbmetaImages → a ∈ l1) :=
  get_vbmeta_patch_order_topological cexImagePaths cexVbmetaImages cexDepGraph
    [("vbmeta_b", ["boot"]), ("vbmeta_a", ["boot"])] ["vbmeta_b", "vbmeta_a"]
    rfl

end Avbroot
